import Mathlib

/-!
# Verification of the levyt record/collection model

Shallow embedding of `levyt/records.py`: the `Record` row type and the
lazily-materializing, cache-backed `Collection` over a one-shot producer
of rows.  The producer (a Python generator in the source) is modelled as
the list of rows it has yet to yield, together with two ghost fields
that instrument it: `finished` marks the generator frame having exited
(after which calling it again raises StopIteration without touching the
underlying source), and `touches` counts the calls that actually reach
the producer.  The ghost fields never influence behaviour.
-/

set_option linter.unusedVariables false

/-- Python-like runtime values, as needed by the `default` parameters of
the aggregate accessors (`first`, `one`, `scalar`) and by the rows they
return.  `vexc` stands for an exception instance or exception class
(which Python's `_is_exception` recognises); `vrec` is a `Record` row. -/
inductive PyVal : Type where
  | vnone : PyVal
  | vint (n : Int) : PyVal
  | vstr (s : String) : PyVal
  | vexc (name : String) : PyVal
  | vrec (keys : List String) (values : List PyVal) : PyVal

/-- Python-level errors that the collection operations can raise:
`raised v` is `raise default`; `valueError` is the `ValueError` from
`Collection.one`; `indexError` is `IndexError`; `typeError` is the
`TypeError` from comparing an `int` with `None`. -/
inductive PyXErr : Type where
  | raised (v : PyVal) : PyXErr
  | valueError (msg : String) : PyXErr
  | indexError : PyXErr
  | typeError : PyXErr

/-- `_is_exception(obj)`: true iff `obj` is an exception instance or an
exception subclass. -/
def isException : PyVal → Bool
  | .vexc _ => true
  | _ => false

/-- Python truthiness of a value (`if record` in `Collection.scalar`).
Records (which define neither `__bool__` nor `__len__`) are always
truthy; `None` is falsy. -/
def pyTruthy : PyVal → Bool
  | .vnone => false
  | .vint n => !(n == 0)
  | .vstr s => !(s == "")
  | .vexc _ => true
  | .vrec _ _ => true

/-- `record[0]` as used by `Collection.scalar`: integer subscript `0`.
For a `Record` this is `values()[0]` (IndexError when empty); for a
string it is the first character; other values raise `TypeError`. -/
def pySubscriptZero : PyVal → Except PyXErr PyVal
  | .vrec _ values =>
      match values.head? with
      | some v => .ok v
      | none => .error .indexError
  | .vstr s =>
      match s.data.head? with
      | some ch => .ok (.vstr (String.mk [ch]))
      | none => .error .indexError
  | _ => .error .typeError

/-- The state of a `Collection`: `rows` is the one-shot producer
(modelled by the list of records it has yet to yield), `all_rows` is the
append-only cache of records already pulled, `pending` is true until the
producer has signalled exhaustion.  `finished` and `touches` are ghost
instrumentation of the producer (see the module docstring). -/
structure Collection (α : Type) where
  rows : List α
  all_rows : List α
  pending : Bool
  finished : Bool
  touches : Nat

/-- `Collection(rows)`: fresh collection over a producer, empty cache,
`pending = True`. -/
def Collection.fresh (prod : List α) : Collection α :=
  { rows := prod, all_rows := [], pending := true, finished := false, touches := 0 }

/-- `Collection.__next__`: pull one record with `next(self._rows)`; on
success append it to `_all_rows` and return it; on StopIteration set
`pending = False` and re-raise (returned here as `none`).  A finished
generator re-raises StopIteration without touching the producer, hence
the ghost `touches` counter only advances when `finished` is false. -/
def Collection.advance (c : Collection α) : Option α × Collection α :=
  match c.rows with
  | r :: rest =>
      (some r, { rows := rest, all_rows := c.all_rows ++ [r],
                 pending := c.pending, finished := c.finished,
                 touches := c.touches + 1 })
  | [] =>
      (none, { c with
                 pending := false
                 finished := true
                 touches := (if c.finished then c.touches else c.touches + 1) })

/-- The `while len(self) < key.stop: next(self)` loop of
`Collection.__getitem__`, for an integer `stop` bound; the first
StopIteration breaks the loop.  The branches mirror
`Collection.advance`. -/
def Collection.fillToN (c : Collection α) (stop : Nat) : Collection α :=
  if c.all_rows.length < stop then
    match hm : c.rows with
    | [] =>
        { c with
            pending := false
            finished := true
            touches := (if c.finished then c.touches else c.touches + 1) }
    | r :: rest =>
        Collection.fillToN
          { rows := rest, all_rows := c.all_rows ++ [r],
            pending := c.pending, finished := c.finished,
            touches := c.touches + 1 } stop
  else c
termination_by c.rows.length
decreasing_by
  rw [hm]
  simp

/-- Python list slicing `l[start:stop]` for non-negative bounds
(`start = None` is `0`); `stop = None` keeps the whole tail. -/
def pySlice (l : List α) (start : Nat) (stop : Option Nat) : List α :=
  match stop with
  | none => l.drop start
  | some n => (l.take n).drop start

/-- `Collection.__getitem__` with an integer key `i ≥ 0`: the key is
converted to `slice(i, i+1)`, the fill loop runs with `stop = i+1`, then
`self._all_rows[i:i+1]` is taken and its element `[0]` returned
(`none` models the IndexError when the slice is empty).  Negative keys
are out of scope, following the spec. -/
def Collection.getIndex (c : Collection α) (i : Nat) : Option α × Collection α :=
  let c2 := Collection.fillToN c (i + 1)
  ((pySlice c2.all_rows i (some (i + 1))).head?, c2)

/-- `Collection.__getitem__` with a slice key.  For a bounded stop the
fill loop runs, the cache is sliced, and a NEW collection
`Collection(iter(rows))` is returned: its producer is a fresh iterator
over the snapshot, its cache is empty and its `pending` flag is true.
For `stop = None` the loop condition `len(self) < key.stop` compares an
`int` with `None` and raises `TypeError` before any pull happens (the
`or key.stop is None` clause is never reached). -/
def Collection.getSlice (c : Collection α) (start : Nat) (stop : Option Nat) :
    Except PyXErr (Collection α × Collection α) :=
  match stop with
  | some n =>
      let c2 := Collection.fillToN c n
      .ok (Collection.fresh (pySlice c2.all_rows start (some n)), c2)
  | none => .error .typeError

/-- One step of the generator in `Collection.__iter__`, holding a
private position counter `i`: if `i < len(self)` yield `self[i]` (a
cache read), else yield `next(self)`; StopIteration ends the iteration
(the counter then stays put and the iterator yields `none` forever,
like an exited generator frame). -/
def Collection.iterStep (c : Collection α) (i : Nat) :
    Option α × Collection α × Nat :=
  if i < c.all_rows.length then
    ((Collection.getIndex c i).1, (Collection.getIndex c i).2, i + 1)
  else
    match Collection.advance c with
    | (some r, c2) => (some r, c2, i + 1)
    | (none, c2) => (none, c2, i)

/-- A full sequential iteration (`list(self)`, used by `Collection.all`)
starting from position `i`: the records yielded, and the state left
behind. -/
def Collection.iterFrom (c : Collection α) (i : Nat) : List α × Collection α :=
  if h : i < c.all_rows.length then
    match hg : Collection.getIndex c i with
    | (some r, c2) =>
        let t := Collection.iterFrom c2 (i + 1)
        (r :: t.1, t.2)
    | (none, c2) => ([], c2)
  else
    match hadv : Collection.advance c with
    | (some r, c2) =>
        let t := Collection.iterFrom c2 (i + 1)
        (r :: t.1, t.2)
    | (none, c2) => ([], c2)
termination_by c.rows.length + (c.all_rows.length + 1 - i)
decreasing_by
  · have h1 : ¬ c.all_rows.length < i + 1 := by omega
    have hfill : Collection.fillToN c (i + 1) = c := by
      rw [Collection.fillToN.eq_def]
      simp [h1]
    simp only [Collection.getIndex, hfill] at hg
    have hc2 : c = c2 := congrArg Prod.snd hg
    rw [← hc2]
    omega
  · rcases hr : c.rows with _ | ⟨r0, rest⟩
    · simp [Collection.advance, hr] at hadv
    · simp [Collection.advance, hr] at hadv
      obtain ⟨-, h2⟩ := hadv
      subst h2
      have hlen : c.rows.length = rest.length + 1 := by rw [hr]; rfl
      simp only [List.length_append, List.length_cons, List.length_nil]
      omega

/-- `list(self)`: iterate the collection from the start. -/
def Collection.listSelf (c : Collection α) : List α × Collection α :=
  Collection.iterFrom c 0

/-- `Collection.first(default)`: `self[0]`, and on IndexError either
raise `default` (when it is an exception) or return it.  The value (or
error) is paired with the state the call leaves behind. -/
def Collection.first (c : Collection PyVal) (default : PyVal) :
    Except PyXErr PyVal × Collection PyVal :=
  match Collection.getIndex c 0 with
  | (some r, c2) => (.ok r, c2)
  | (none, c2) =>
      (if isException default then .error (.raised default) else .ok default, c2)

/-- The message of the `ValueError` raised by `Collection.one`. -/
def multipleRowsMsg : String :=
  "Collection contains more than one row, exactly one row expected."

/-- `Collection.one(default)`: probe `self[1]`; on IndexError fall back
to `first(default)`, otherwise raise `ValueError`. -/
def Collection.one (c : Collection PyVal) (default : PyVal) :
    Except PyXErr PyVal × Collection PyVal :=
  match Collection.getIndex c 1 with
  | (none, c2) => Collection.first c2 default
  | (some _, c2) => (.error (.valueError multipleRowsMsg), c2)

/-- `Collection.scalar(default)`: `record = self.one()` (with `one`'s
own default of `None`), then `record[0] if record else default`. -/
def Collection.scalar (c : Collection PyVal) (default : PyVal) :
    Except PyXErr PyVal × Collection PyVal :=
  match Collection.one c .vnone with
  | (.ok record, c2) =>
      if pyTruthy record then (pySubscriptZero record, c2) else (.ok default, c2)
  | (.error e, c2) => (.error e, c2)

/-- The operations through which client code can drive a collection:
`next(c)`, `c[i]`, `c[start:stop]`, one step of an iterator sitting at
position `i`, and the aggregate accessors `first`, `one`, `scalar` and
`all` with their `default` arguments. -/
inductive Op : Type where
  | nextOp : Op
  | indexOp (i : Nat) : Op
  | sliceOp (start : Nat) (stop : Option Nat) : Op
  | iterOp (i : Nat) : Op
  | firstOp (d : PyVal) : Op
  | oneOp (d : PyVal) : Op
  | scalarOp (d : PyVal) : Op
  | allOp : Op

/-- The state a collection is left in after one operation (an exception
propagating out of the operation leaves the state as the operation left
it; for an unbounded slice the `TypeError` fires before any pull, so the
state is unchanged). -/
def applyOp (c : Collection PyVal) : Op → Collection PyVal
  | .nextOp => (Collection.advance c).2
  | .indexOp i => (Collection.getIndex c i).2
  | .sliceOp start stop =>
      match Collection.getSlice c start stop with
      | .ok p => p.2
      | .error _ => c
  | .iterOp i => (Collection.iterStep c i).2.1
  | .firstOp d => (Collection.first c d).2
  | .oneOp d => (Collection.one c d).2
  | .scalarOp d => (Collection.scalar c d).2
  | .allOp => (Collection.listSelf c).2

/-- The state after a sequence of operations. -/
def applyOps (c : Collection PyVal) (ops : List Op) : Collection PyVal :=
  ops.foldl applyOp c

/-- Any number of independent iterations over one shared collection:
the shared state together with the private position counter of each
live iterator (`Collection.__iter__` gives each iteration request its
own counter starting at 0). -/
def runSched (st : Collection α × List Nat) :
    List Nat → (Collection α × List Nat) × List (Nat × Option α)
  | [] => (st, [])
  | j :: sched =>
      if h : j < st.2.length then
        let i := st.2.get ⟨j, h⟩
        let r := Collection.iterStep st.1 i
        let rest := runSched (r.2.1, st.2.set j r.2.2) sched
        (rest.1, (j, r.1) :: rest.2)
      else
        runSched st sched

/-- The values yielded by iterator `j` within an interleaved trace, in
order. -/
def yieldsOf (j : Nat) (tr : List (Nat × Option α)) : List (Option α) :=
  (tr.filter (fun e => e.1 == j)).map (fun e => e.2)

/-- Python list indexing `l[i]` with an `int` index: a negative index
counts from the end; `none` models the `IndexError` raised when the
index is out of bounds. -/
def pyListGet (l : List α) (i : Int) : Option α :=
  if 0 ≤ i then l.get? i.toNat
  else if (-i).toNat ≤ l.length then l.get? (l.length - (-i).toNat)
  else none

/-- Errors raised by `Record` lookups: the two `KeyError`s of
`Record.__getitem__` (duplicate field, missing field) and the
`IndexError` of Python list indexing. -/
inductive RecErr : Type where
  | keyErrorDup (key : String) : RecErr
  | keyErrorMissing (key : String) : RecErr
  | indexError : RecErr
  deriving DecidableEq

/-- Whether an error is a `KeyError` (the only class that
`Record.get` catches). -/
def RecErr.isKeyError : RecErr → Bool
  | .keyErrorDup _ => true
  | .keyErrorMissing _ => true
  | .indexError => false

/-- A single record from a query: `_keys` and `_values`, positionally
paired.  The constructor asserts the two lists have equal length; the
theorems carry that assertion as a hypothesis. -/
structure Record (α : Type) where
  keys : List String
  values : List α

/-- `Record.__getitem__`: an `int` key is positional lookup in
`values()`; a `str` key requires the name to occur exactly once in
`keys()` (duplicate names raise `KeyError`, absent names raise
`KeyError`), and returns the value at the first index of the name. -/
def Record.getItem (r : Record α) : String ⊕ Int → Except RecErr α
  | .inr i =>
      match pyListGet r.values i with
      | some v => .ok v
      | none => .error .indexError
  | .inl key =>
      if r.keys.contains key then
        if 1 < r.keys.count key then .error (.keyErrorDup key)
        else
          match r.values.get? (r.keys.indexOf key) with
          | some v => .ok v
          | none => .error .indexError
      else .error (.keyErrorMissing key)

/-- `Record.get(key, default)`: `self[key]`, with any `KeyError`
swallowed and converted to `default`; other errors propagate. -/
def Record.get (r : Record α) (key : String) (default : α) : Except RecErr α :=
  match Record.getItem r (.inl key) with
  | .ok v => .ok v
  | .error e => if e.isKeyError then .ok default else .error e

/-- The states a collection born over the result sequence `prod` can
reach: the cache is the prefix of `prod` already pulled, `rows` is the
rest, `pending` mirrors the ghost `finished` flag, a finished producer
has nothing left, and each producer touch accounts for exactly one
cached record or the single terminal exhaustion signal. -/
structure Reach (prod : List α) (c : Collection α) : Prop where
  cache_eq : c.all_rows = prod.take c.all_rows.length
  rows_eq : c.rows = prod.drop c.all_rows.length
  pend_eq : c.pending = !c.finished
  fin_none : c.finished = true → c.rows = []
  touch_eq : c.touches = c.all_rows.length + (if c.finished then 1 else 0)

/-! ## Basic facts about the producer step and the fill loop -/

theorem drop_head_get (l : List α) (n : Nat) : (l.drop n).head? = l[n]? := by
  simp [List.head?_eq_getElem?]

theorem advance_nil (c : Collection α) (hm : c.rows = []) :
    Collection.advance c =
      (none, { c with
                 pending := false
                 finished := true
                 touches := (if c.finished then c.touches else c.touches + 1) }) := by
  simp [Collection.advance, hm]

theorem advance_cons (c : Collection α) (r : α) (rest : List α) (hm : c.rows = r :: rest) :
    Collection.advance c =
      (some r, { rows := rest, all_rows := c.all_rows ++ [r],
                 pending := c.pending, finished := c.finished,
                 touches := c.touches + 1 }) := by
  simp [Collection.advance, hm]

theorem fillToN_stop (c : Collection α) (n : Nat) (h : ¬ c.all_rows.length < n) :
    Collection.fillToN c n = c := by
  rw [Collection.fillToN.eq_def, if_neg h]

theorem fillToN_nil (c : Collection α) (n : Nat) (h : c.all_rows.length < n)
    (hm : c.rows = []) :
    Collection.fillToN c n =
      { c with
          pending := false
          finished := true
          touches := (if c.finished then c.touches else c.touches + 1) } := by
  rw [Collection.fillToN.eq_def, if_pos h]
  split
  · rfl
  · rename_i r rest hm2
    rw [hm] at hm2
    cases hm2

theorem fillToN_cons (c : Collection α) (n : Nat) (h : c.all_rows.length < n)
    (r : α) (rest : List α) (hm : c.rows = r :: rest) :
    Collection.fillToN c n =
      Collection.fillToN
        { rows := rest, all_rows := c.all_rows ++ [r],
          pending := c.pending, finished := c.finished,
          touches := c.touches + 1 } n := by
  rw [Collection.fillToN.eq_def, if_pos h]
  split
  · rename_i hm2
    rw [hm] at hm2
    cases hm2
  · rename_i r2 rest2 hm2
    rw [hm] at hm2
    cases hm2
    rfl

/-! ## Reachability: the prefix-cache invariant -/

theorem reach_fresh (prod : List α) : Reach prod (Collection.fresh prod) := by
  constructor <;> simp [Collection.fresh]

theorem reach_len_le {prod : List α} {c : Collection α} (h : Reach prod c) :
    c.all_rows.length ≤ prod.length := by
  have h1 := congrArg List.length h.cache_eq
  simp at h1
  omega

theorem reach_nil_full {prod : List α} {c : Collection α} (h : Reach prod c)
    (hm : c.rows = []) : c.all_rows = prod ∧ c.all_rows.length = prod.length := by
  have h1 : prod.drop c.all_rows.length = [] := by rw [← h.rows_eq, hm]
  have h2 : prod.length ≤ c.all_rows.length := by
    by_contra hlt
    have := congrArg List.length h1
    simp at this
    omega
  have h3 := reach_len_le h
  have h4 : c.all_rows.length = prod.length := le_antisymm h3 h2
  refine ⟨?_, h4⟩
  rw [h.cache_eq, h4, List.take_length]

theorem reach_advance {prod : List α} {c : Collection α} (h : Reach prod c) :
    Reach prod (Collection.advance c).2 := by
  rcases hr : c.rows with _ | ⟨r, rest⟩
  · rw [advance_nil c hr]
    refine ⟨h.cache_eq, ?_, by simp, fun _ => hr, ?_⟩
    · exact hr ▸ h.rows_eq
    · have ht := h.touch_eq
      rcases hcf : c.finished with _ | _ <;> simp [hcf] at ht ⊢ <;> omega
  · have hfin : c.finished = false := by
      rcases hcf : c.finished with _ | _
      · rfl
      · rw [h.fin_none hcf] at hr
        cases hr
    have hdropL : prod.drop c.all_rows.length = r :: rest := h.rows_eq.symm.trans hr
    have hget : prod[c.all_rows.length]? = some r := by
      rw [← drop_head_get, hdropL]
      rfl
    have htake : prod.take (c.all_rows.length + 1) = c.all_rows ++ [r] := by
      rw [List.take_succ, hget, ← h.cache_eq]
      rfl
    have hdropS : prod.drop (c.all_rows.length + 1) = rest := by
      have h1 := congrArg (List.drop 1) hdropL
      rw [List.drop_drop] at h1
      simpa using h1
    rw [advance_cons c r rest hr]
    refine ⟨?_, ?_, h.pend_eq, ?_, ?_⟩
    · simpa using htake.symm
    · simpa using hdropS.symm
    · intro hcf
      rw [hfin] at hcf
      cases hcf
    · have ht := h.touch_eq
      simp [hfin] at ht ⊢
      omega

theorem reach_fillToN {prod : List α} {c : Collection α} (n : Nat) (h : Reach prod c) :
    Reach prod (Collection.fillToN c n) := by
  revert h
  induction c, n using Collection.fillToN.induct with
  | case1 c n hlt hm =>
      intro h
      rw [fillToN_nil c n hlt hm]
      have h2 := reach_advance h
      rw [advance_nil c hm] at h2
      exact h2
  | case2 c n hlt r rest hm ih =>
      intro h
      rw [fillToN_cons c n hlt r rest hm]
      apply ih
      have h2 := reach_advance h
      rw [advance_cons c r rest hm] at h2
      exact h2
  | case3 c n hlt =>
      intro h
      rw [fillToN_stop c n hlt]
      exact h

theorem fillToN_length {prod : List α} {c : Collection α} (n : Nat) (h : Reach prod c) :
    (Collection.fillToN c n).all_rows.length =
      max c.all_rows.length (min n prod.length) := by
  revert h
  induction c, n using Collection.fillToN.induct with
  | case1 c n hlt hm =>
      intro h
      rw [fillToN_nil c n hlt hm]
      have h2 := (reach_nil_full h hm).2
      simp only []
      omega
  | case2 c n hlt r rest hm ih =>
      intro h
      rw [fillToN_cons c n hlt r rest hm]
      have h2 := reach_advance h
      rw [advance_cons c r rest hm] at h2
      have h3 := ih h2
      have h4 : c.all_rows.length < prod.length := by
        have h5 := reach_len_le h2
        simp at h5
        omega
      simp at h3 ⊢
      omega
  | case3 c n hlt =>
      intro h
      rw [fillToN_stop c n hlt]
      have h2 := reach_len_le h
      omega

theorem fillToN_cache_mono (c : Collection α) (n : Nat) :
    ∃ t, (Collection.fillToN c n).all_rows = c.all_rows ++ t := by
  induction c, n using Collection.fillToN.induct with
  | case1 c n hlt hm =>
      rw [fillToN_nil c n hlt hm]
      exact ⟨[], by simp⟩
  | case2 c n hlt r rest hm ih =>
      rw [fillToN_cons c n hlt r rest hm]
      obtain ⟨t, ht⟩ := ih
      exact ⟨r :: t, by simpa using ht⟩
  | case3 c n hlt =>
      exact ⟨[], by rw [fillToN_stop c n hlt]; simp⟩

theorem advance_cache_mono (c : Collection α) :
    ∃ t, (Collection.advance c).2.all_rows = c.all_rows ++ t := by
  rcases hr : c.rows with _ | ⟨r, rest⟩
  · rw [advance_nil c hr]
    exact ⟨[], by simp⟩
  · rw [advance_cons c r rest hr]
    exact ⟨[r], rfl⟩

/-! ## The integer-index accessor -/

theorem getIndex_eq (c : Collection α) (i : Nat) :
    Collection.getIndex c i =
      ((Collection.fillToN c (i + 1)).all_rows[i]?, Collection.fillToN c (i + 1)) := by
  simp only [Collection.getIndex, pySlice]
  rw [drop_head_get]
  rw [List.getElem?_take_of_lt (Nat.lt_succ_self i)]

theorem getIndex_val {prod : List α} {c : Collection α} (h : Reach prod c) (i : Nat) :
    (Collection.getIndex c i).1 = prod[i]? ∧ Reach prod (Collection.getIndex c i).2 := by
  rw [getIndex_eq]
  have hre := reach_fillToN (i + 1) h
  have hlen := fillToN_length (i + 1) h
  refine ⟨?_, hre⟩
  rw [hre.cache_eq]
  by_cases hiN : i < prod.length
  · rw [List.getElem?_take_of_lt (by omega)]
  · have h1 : prod[i]? = none := by
      rw [List.getElem?_eq_none]
      omega
    rw [h1, List.getElem?_eq_none]
    simp
    omega

theorem reach_drained (prod : List α) :
    Reach prod { rows := [], all_rows := prod, pending := false, finished := true,
                 touches := prod.length + 1 } := by
  constructor <;> simp

theorem iterStep_spec {prod : List α} {c : Collection α} (h : Reach prod c) (i : Nat)
    (hi : i ≤ c.all_rows.length) :
    (Collection.iterStep c i).1 = prod[i]? ∧
    Reach prod (Collection.iterStep c i).2.1 ∧
    (Collection.iterStep c i).2.2 = (if i < prod.length then i + 1 else i) ∧
    (Collection.iterStep c i).2.2 ≤ (Collection.iterStep c i).2.1.all_rows.length ∧
    c.all_rows.length ≤ (Collection.iterStep c i).2.1.all_rows.length := by
  have hLN := reach_len_le h
  by_cases hlt : i < c.all_rows.length
  · unfold Collection.iterStep
    simp only [if_pos hlt]
    obtain ⟨hv, hre⟩ := getIndex_val h i
    have hlen := fillToN_length (i + 1) h
    rw [getIndex_eq] at hv hre ⊢
    refine ⟨hv, hre, ?_, by simp; omega, by simp; omega⟩
    rw [if_pos (by omega)]
  · have hiL : i = c.all_rows.length := by omega
    rcases hr : c.rows with _ | ⟨r, rest⟩
    · have hfull := reach_nil_full h hr
      have hre := reach_advance h
      rw [advance_nil c hr] at hre
      have hstep : Collection.iterStep c i =
          (none, { c with
                     pending := false
                     finished := true
                     touches := (if c.finished then c.touches else c.touches + 1) },
            i) := by
        unfold Collection.iterStep
        rw [if_neg hlt, advance_nil c hr]
      rw [hstep]
      refine ⟨?_, hre, ?_, ?_, ?_⟩
      · show (none : Option α) = prod[i]?
        rw [List.getElem?_eq_none (by omega)]
      · show i = if i < prod.length then i + 1 else i
        rw [if_neg (by omega)]
      · show i ≤ c.all_rows.length
        exact hi
      · show c.all_rows.length ≤ c.all_rows.length
        exact Nat.le_refl _
    · have hre := reach_advance h
      rw [advance_cons c r rest hr] at hre
      have hdropL : prod.drop c.all_rows.length = r :: rest := h.rows_eq.symm.trans hr
      have hget : prod[c.all_rows.length]? = some r := by
        rw [← drop_head_get, hdropL]
        rfl
      have hiN : i < prod.length := by
        have h1 : c.all_rows.length < prod.length := by
          by_contra h2
          rw [List.drop_eq_nil_of_le (by omega)] at hdropL
          cases hdropL
        omega
      have hstep : Collection.iterStep c i =
          (some r, { rows := rest, all_rows := c.all_rows ++ [r],
                     pending := c.pending, finished := c.finished,
                     touches := c.touches + 1 },
            i + 1) := by
        unfold Collection.iterStep
        rw [if_neg hlt, advance_cons c r rest hr]
      rw [hstep]
      refine ⟨by rw [hiL]; exact hget.symm, hre, by rw [if_pos hiN], by simp; omega,
        by simp⟩

/-! ## Full sequential iteration -/

theorem iterFrom_lt_some (c : Collection α) (i : Nat) (h : i < c.all_rows.length)
    (r : α) (c2 : Collection α) (hg : Collection.getIndex c i = (some r, c2)) :
    Collection.iterFrom c i =
      (r :: (Collection.iterFrom c2 (i + 1)).1, (Collection.iterFrom c2 (i + 1)).2) := by
  rw [Collection.iterFrom.eq_def, dif_pos h]
  split
  · rename_i r2 c3 hg2
    rw [hg] at hg2
    cases hg2
    rfl
  · rename_i c3 hg2
    rw [hg] at hg2
    cases hg2

theorem iterFrom_lt_none (c : Collection α) (i : Nat) (h : i < c.all_rows.length)
    (c2 : Collection α) (hg : Collection.getIndex c i = (none, c2)) :
    Collection.iterFrom c i = ([], c2) := by
  rw [Collection.iterFrom.eq_def, dif_pos h]
  split
  · rename_i r2 c3 hg2
    rw [hg] at hg2
    cases hg2
  · rename_i c3 hg2
    rw [hg] at hg2
    cases hg2
    rfl

theorem iterFrom_ge_some (c : Collection α) (i : Nat) (h : ¬ i < c.all_rows.length)
    (r : α) (c2 : Collection α) (hadv : Collection.advance c = (some r, c2)) :
    Collection.iterFrom c i =
      (r :: (Collection.iterFrom c2 (i + 1)).1, (Collection.iterFrom c2 (i + 1)).2) := by
  rw [Collection.iterFrom.eq_def, dif_neg h]
  split
  · rename_i r2 c3 hadv2
    rw [hadv] at hadv2
    cases hadv2
    rfl
  · rename_i c3 hadv2
    rw [hadv] at hadv2
    cases hadv2

theorem iterFrom_ge_none (c : Collection α) (i : Nat) (h : ¬ i < c.all_rows.length)
    (c2 : Collection α) (hadv : Collection.advance c = (none, c2)) :
    Collection.iterFrom c i = ([], c2) := by
  rw [Collection.iterFrom.eq_def, dif_neg h]
  split
  · rename_i r2 c3 hadv2
    rw [hadv] at hadv2
    cases hadv2
  · rename_i c3 hadv2
    rw [hadv] at hadv2
    cases hadv2
    rfl

theorem iterFrom_spec {prod : List α} {c : Collection α} {i : Nat} (h : Reach prod c)
    (hi : i ≤ c.all_rows.length) :
    (Collection.iterFrom c i).1 = prod.drop i ∧
    (Collection.iterFrom c i).2 =
      { rows := [], all_rows := prod, pending := false, finished := true,
        touches := prod.length + 1 } := by
  revert h hi
  induction c, i using Collection.iterFrom.induct with
  | case1 c i hlt r c2 hg ih =>
      intro h hi
      have hLN := reach_len_le h
      have hfix : Collection.fillToN c (i + 1) = c := fillToN_stop c (i + 1) (by omega)
      have hg2 := hg
      rw [getIndex_eq, hfix] at hg2
      have hc2 : c = c2 := congrArg Prod.snd hg2
      have hv : c.all_rows[i]? = some r := congrArg Prod.fst hg2
      have hvp : prod[i]? = some r := by
        rw [h.cache_eq, List.getElem?_take_of_lt hlt] at hv
        exact hv
      have hiN : i < prod.length := by
        rw [List.getElem?_eq_some_iff] at hvp
        exact hvp.1
      obtain ⟨ht1, ht2⟩ := ih (hc2 ▸ h) (by rw [← hc2]; omega)
      rw [iterFrom_lt_some c i hlt r c2 hg]
      refine ⟨?_, ht2⟩
      rw [ht1, List.drop_eq_getElem_cons hiN]
      have hri : prod[i] = r := by
        rw [List.getElem?_eq_getElem hiN] at hvp
        exact Option.some.inj hvp
      rw [hri]
  | case2 c i hlt c2 hg =>
      intro h hi
      exfalso
      have hLN := reach_len_le h
      have hfix : Collection.fillToN c (i + 1) = c := fillToN_stop c (i + 1) (by omega)
      rw [getIndex_eq, hfix] at hg
      have hv : c.all_rows[i]? = none := congrArg Prod.fst hg
      rw [List.getElem?_eq_none_iff] at hv
      omega
  | case3 c i hlt r c2 hadv ih =>
      intro h hi
      have hLN := reach_len_le h
      have hiL : i = c.all_rows.length := by omega
      rcases hr : c.rows with _ | ⟨r0, rest⟩
      · rw [advance_nil c hr] at hadv
        exact Option.noConfusion (congrArg Prod.fst hadv)
      · have hadv2 := hadv
        rw [advance_cons c r0 rest hr] at hadv2
        have hrr : r0 = r := Option.some.inj (congrArg Prod.fst hadv2)
        have hc2 : { rows := rest, all_rows := c.all_rows ++ [r0],
                     pending := c.pending, finished := c.finished,
                     touches := c.touches + 1 } = c2 := congrArg Prod.snd hadv2
        have hre := reach_advance h
        rw [advance_cons c r0 rest hr] at hre
        rw [hc2] at hre
        have hdropL : prod.drop c.all_rows.length = r0 :: rest := h.rows_eq.symm.trans hr
        have hget : prod[c.all_rows.length]? = some r0 := by
          rw [← drop_head_get, hdropL]
          rfl
        have hiN : i < prod.length := by
          have h5 := (List.getElem?_eq_some_iff.mp hget).1
          omega
        obtain ⟨ht1, ht2⟩ := ih hre (by rw [← hc2]; simp; omega)
        rw [iterFrom_ge_some c i hlt r c2 hadv]
        refine ⟨?_, ht2⟩
        rw [ht1, List.drop_eq_getElem_cons hiN]
        have hgi : prod[i]? = some r := by
          rw [hiL, ← hrr]
          exact hget
        have hri : prod[i] = r :=
          Option.some.inj ((List.getElem?_eq_getElem hiN).symm.trans hgi)
        rw [hri]
  | case4 c i hlt c2 hadv =>
      intro h hi
      have hLN := reach_len_le h
      have hiL : i = c.all_rows.length := by omega
      rcases hr : c.rows with _ | ⟨r0, rest⟩
      · have hfull := reach_nil_full h hr
        rw [iterFrom_ge_none c i hlt c2 hadv]
        rw [advance_nil c hr] at hadv
        have hc2 : { c with
                       pending := false
                       finished := true
                       touches := (if c.finished then c.touches else c.touches + 1) } =
            c2 := congrArg Prod.snd hadv
        have ht := h.touch_eq
        have hca : c.all_rows = prod := hfull.1
        refine ⟨(List.drop_eq_nil_of_le (by omega)).symm, ?_⟩
        rw [← hc2]
        obtain ⟨cr, ca, cp, cf, ct⟩ := c
        simp only at hr hca ht ⊢
        subst hr
        subst hca
        rcases cf with _ | _
        · show Collection.mk [] ca false true (ct + 1) =
            Collection.mk [] ca false true (ca.length + 1)
          simp at ht
          rw [ht]
        · show Collection.mk [] ca false true ct =
            Collection.mk [] ca false true (ca.length + 1)
          simp at ht
          rw [ht]
      · rw [advance_cons c r0 rest hr] at hadv
        exact Option.noConfusion (congrArg Prod.fst hadv)

theorem iterFrom_cache_mono (c : Collection α) (i : Nat) :
    ∃ t, (Collection.iterFrom c i).2.all_rows = c.all_rows ++ t := by
  induction c, i using Collection.iterFrom.induct with
  | case1 c i hlt r c2 hg ih =>
      rw [iterFrom_lt_some c i hlt r c2 hg]
      obtain ⟨t, ht⟩ := ih
      have hc2 : c2 = Collection.fillToN c (i + 1) := by
        rw [getIndex_eq] at hg
        exact (congrArg Prod.snd hg).symm
      obtain ⟨t2, ht2⟩ := fillToN_cache_mono c (i + 1)
      refine ⟨t2 ++ t, ?_⟩
      rw [ht, hc2, ht2, List.append_assoc]
  | case2 c i hlt c2 hg =>
      rw [iterFrom_lt_none c i hlt c2 hg]
      have hc2 : c2 = Collection.fillToN c (i + 1) := by
        rw [getIndex_eq] at hg
        exact (congrArg Prod.snd hg).symm
      obtain ⟨t2, ht2⟩ := fillToN_cache_mono c (i + 1)
      exact ⟨t2, by rw [hc2]; exact ht2⟩
  | case3 c i hlt r c2 hadv ih =>
      rw [iterFrom_ge_some c i hlt r c2 hadv]
      obtain ⟨t, ht⟩ := ih
      have hc2 : c2 = (Collection.advance c).2 := by rw [hadv]
      obtain ⟨t2, ht2⟩ := advance_cache_mono c
      refine ⟨t2 ++ t, ?_⟩
      rw [ht, hc2, ht2, List.append_assoc]
  | case4 c i hlt c2 hadv =>
      rw [iterFrom_ge_none c i hlt c2 hadv]
      have hc2 : c2 = (Collection.advance c).2 := by rw [hadv]
      obtain ⟨t2, ht2⟩ := advance_cache_mono c
      exact ⟨t2, by rw [hc2]; exact ht2⟩

/-! ## The aggregate accessors -/

theorem getIndex_cache_mono (c : Collection α) (i : Nat) :
    ∃ t, (Collection.getIndex c i).2.all_rows = c.all_rows ++ t := by
  rw [getIndex_eq]
  exact fillToN_cache_mono c (i + 1)

theorem reach_first {prod : List PyVal} {c : Collection PyVal} (h : Reach prod c)
    (d : PyVal) : Reach prod (Collection.first c d).2 := by
  unfold Collection.first
  rcases hg : Collection.getIndex c 0 with ⟨v, c2⟩
  have h2 := (getIndex_val h 0).2
  rw [hg] at h2
  rcases v with _ | r
  · exact h2
  · exact h2

theorem reach_one {prod : List PyVal} {c : Collection PyVal} (h : Reach prod c)
    (d : PyVal) : Reach prod (Collection.one c d).2 := by
  unfold Collection.one
  rcases hg : Collection.getIndex c 1 with ⟨v, c2⟩
  have h2 := (getIndex_val h 1).2
  rw [hg] at h2
  rcases v with _ | r
  · exact reach_first h2 d
  · exact h2

theorem reach_scalar {prod : List PyVal} {c : Collection PyVal} (h : Reach prod c)
    (d : PyVal) : Reach prod (Collection.scalar c d).2 := by
  rcases ho : Collection.one c .vnone with ⟨v, c2⟩
  have h2 := reach_one h PyVal.vnone
  rw [ho] at h2
  rcases v with e | record
  · have hs : Collection.scalar c d = (.error e, c2) := by
      unfold Collection.scalar
      rw [ho]
    rw [hs]
    exact h2
  · have hs : Collection.scalar c d =
        (if pyTruthy record then (pySubscriptZero record, c2) else (.ok d, c2)) := by
      unfold Collection.scalar
      rw [ho]
    rw [hs]
    split <;> exact h2

theorem first_cache_mono (c : Collection PyVal) (d : PyVal) :
    ∃ t, (Collection.first c d).2.all_rows = c.all_rows ++ t := by
  unfold Collection.first
  rcases hg : Collection.getIndex c 0 with ⟨v, c2⟩
  have hm := getIndex_cache_mono c 0
  rw [hg] at hm
  rcases v with _ | r
  · exact hm
  · exact hm

theorem one_cache_mono (c : Collection PyVal) (d : PyVal) :
    ∃ t, (Collection.one c d).2.all_rows = c.all_rows ++ t := by
  unfold Collection.one
  rcases hg : Collection.getIndex c 1 with ⟨v, c2⟩
  have hm := getIndex_cache_mono c 1
  rw [hg] at hm
  rcases v with _ | r
  · obtain ⟨t1, ht1⟩ := hm
    obtain ⟨t2, ht2⟩ := first_cache_mono c2 d
    exact ⟨t1 ++ t2, by rw [ht2, ht1, List.append_assoc]⟩
  · exact hm

theorem scalar_cache_mono (c : Collection PyVal) (d : PyVal) :
    ∃ t, (Collection.scalar c d).2.all_rows = c.all_rows ++ t := by
  rcases ho : Collection.one c .vnone with ⟨v, c2⟩
  have hm := one_cache_mono c PyVal.vnone
  rw [ho] at hm
  rcases v with e | record
  · have hs : Collection.scalar c d = (.error e, c2) := by
      unfold Collection.scalar
      rw [ho]
    rw [hs]
    exact hm
  · have hs : Collection.scalar c d =
        (if pyTruthy record then (pySubscriptZero record, c2) else (.ok d, c2)) := by
      unfold Collection.scalar
      rw [ho]
    rw [hs]
    split <;> exact hm

/-! ## The operation alphabet -/

theorem reach_applyOp {prod : List PyVal} {c : Collection PyVal} (h : Reach prod c)
    (op : Op) : Reach prod (applyOp c op) := by
  cases op with
  | nextOp => exact reach_advance h
  | indexOp i => exact (getIndex_val h i).2
  | sliceOp s t =>
      cases t with
      | none => simpa [applyOp, Collection.getSlice] using h
      | some n =>
          have he : applyOp c (.sliceOp s (some n)) = Collection.fillToN c n := by
            simp [applyOp, Collection.getSlice]
          rw [he]
          exact reach_fillToN n h
  | iterOp i =>
      simp only [applyOp]
      unfold Collection.iterStep
      by_cases hlt : i < c.all_rows.length
      · rw [if_pos hlt]
        exact (getIndex_val h i).2
      · rw [if_neg hlt]
        rcases hr : c.rows with _ | ⟨r, rest⟩
        · rw [advance_nil c hr]
          have h2 := reach_advance h
          rw [advance_nil c hr] at h2
          exact h2
        · rw [advance_cons c r rest hr]
          have h2 := reach_advance h
          rw [advance_cons c r rest hr] at h2
          exact h2
  | firstOp d => exact reach_first h d
  | oneOp d => exact reach_one h d
  | scalarOp d => exact reach_scalar h d
  | allOp =>
      simp only [applyOp]
      unfold Collection.listSelf
      rw [(iterFrom_spec h (Nat.zero_le _)).2]
      exact reach_drained prod

theorem applyOp_cache_mono (c : Collection PyVal) (op : Op) :
    ∃ t, (applyOp c op).all_rows = c.all_rows ++ t := by
  cases op with
  | nextOp => exact advance_cache_mono c
  | indexOp i => exact getIndex_cache_mono c i
  | sliceOp s t =>
      cases t with
      | none => exact ⟨[], by simp [applyOp, Collection.getSlice]⟩
      | some n =>
          have he : applyOp c (.sliceOp s (some n)) = Collection.fillToN c n := by
            simp [applyOp, Collection.getSlice]
          rw [he]
          exact fillToN_cache_mono c n
  | iterOp i =>
      simp only [applyOp]
      unfold Collection.iterStep
      by_cases hlt : i < c.all_rows.length
      · rw [if_pos hlt]
        exact getIndex_cache_mono c i
      · rw [if_neg hlt]
        rcases hr : c.rows with _ | ⟨r, rest⟩
        · rw [advance_nil c hr]
          exact ⟨[], by simp⟩
        · rw [advance_cons c r rest hr]
          exact ⟨[r], rfl⟩
  | firstOp d => exact first_cache_mono c d
  | oneOp d => exact one_cache_mono c d
  | scalarOp d => exact scalar_cache_mono c d
  | allOp =>
      simp only [applyOp]
      unfold Collection.listSelf
      exact iterFrom_cache_mono c 0

theorem applyOps_cons (c : Collection PyVal) (op : Op) (ops : List Op) :
    applyOps c (op :: ops) = applyOps (applyOp c op) ops := rfl

theorem reach_applyOps {prod : List PyVal} {c : Collection PyVal} (h : Reach prod c)
    (ops : List Op) : Reach prod (applyOps c ops) := by
  induction ops generalizing c with
  | nil => exact h
  | cons op ops ih =>
      rw [applyOps_cons]
      exact ih (reach_applyOp h op)

theorem applyOps_cache_mono (c : Collection PyVal) (ops : List Op) :
    ∃ t, (applyOps c ops).all_rows = c.all_rows ++ t := by
  induction ops generalizing c with
  | nil => exact ⟨[], by simp [applyOps]⟩
  | cons op ops ih =>
      rw [applyOps_cons]
      obtain ⟨t1, ht1⟩ := applyOp_cache_mono c op
      obtain ⟨t2, ht2⟩ := ih (applyOp c op)
      exact ⟨t1 ++ t2, by rw [ht2, ht1, List.append_assoc]⟩

/-! ## Interleaved iterators -/

theorem yieldsOf_cons_eq (j : Nat) (y : Option α) (tr : List (Nat × Option α)) :
    yieldsOf j ((j, y) :: tr) = y :: yieldsOf j tr := by
  simp [yieldsOf]

theorem yieldsOf_cons_ne (i j : Nat) (hne : i ≠ j) (y : Option α)
    (tr : List (Nat × Option α)) :
    yieldsOf j ((i, y) :: tr) = yieldsOf j tr := by
  simp [yieldsOf, hne]

theorem runSched_nil (st : Collection α × List Nat) : runSched st [] = (st, []) := rfl

theorem runSched_cons_valid (c : Collection α) (ps : List Nat) (j0 : Nat)
    (sched : List Nat) (hv : j0 < ps.length) :
    runSched (c, ps) (j0 :: sched) =
      ((runSched ((Collection.iterStep c (ps.get ⟨j0, hv⟩)).2.1,
                  ps.set j0 (Collection.iterStep c (ps.get ⟨j0, hv⟩)).2.2) sched).1,
       (j0, (Collection.iterStep c (ps.get ⟨j0, hv⟩)).1) ::
         (runSched ((Collection.iterStep c (ps.get ⟨j0, hv⟩)).2.1,
                    ps.set j0 (Collection.iterStep c (ps.get ⟨j0, hv⟩)).2.2) sched).2) := by
  simp only [runSched]
  rw [dif_pos hv]

theorem runSched_cons_invalid (c : Collection α) (ps : List Nat) (j0 : Nat)
    (sched : List Nat) (hv : ¬ j0 < ps.length) :
    runSched (c, ps) (j0 :: sched) = runSched (c, ps) sched := by
  simp only [runSched]
  rw [dif_neg hv]

theorem getD_of_lt (l : List Nat) (j : Nat) (h : j < l.length) :
    l.getD j 0 = l.get ⟨j, h⟩ := by
  simp [List.getD_eq_getElem?_getD, List.getElem?_eq_getElem h]

theorem getD_set_self_of_lt (l : List Nat) (j v : Nat) (h : j < l.length) :
    (l.set j v).getD j 0 = v := by
  simp [List.getD_eq_getElem?_getD, List.getElem?_set_self, h]

theorem getD_set_ne2 (l : List Nat) (i j v : Nat) (hne : i ≠ j) :
    (l.set i v).getD j 0 = l.getD j 0 := by
  simp [List.getD_eq_getElem?_getD, List.getElem?_set_ne hne]

theorem take_drop_cons (l : List α) (m n : Nat) (h : n < m) (h2 : n < l.length) :
    (l.take m).drop n = l[n] :: (l.take m).drop (n + 1) := by
  rw [List.drop_eq_getElem_cons (by simp; omega)]
  congr 1
  rw [List.getElem_take]

theorem take_drop_self_nil (l : List α) (p : Nat) :
    (l.take p).drop p = [] := by
  apply List.drop_eq_nil_of_le
  simp

/-- The master lemma for interleaved iteration: starting from any
reachable shared state and any private position counters bounded by the
cache, every schedule leaves the state reachable, only grows positions
and the cache, and hands each iterator `j` the values
`prod[start_j], ..., prod[end_j - 1]` in order (each wrapped in `some`),
followed by end-of-iteration signals that can only occur once the
iterator's position has reached the end of `prod`. -/
theorem runSched_spec {prod : List α} (sched : List Nat) :
    ∀ (c : Collection α) (ps : List Nat),
    Reach prod c →
    (∀ j, ps.getD j 0 ≤ c.all_rows.length) →
    ∀ cf psf tr, runSched (c, ps) sched = ((cf, psf), tr) →
    Reach prod cf ∧
    psf.length = ps.length ∧
    c.all_rows.length ≤ cf.all_rows.length ∧
    ∀ j, ps.getD j 0 ≤ psf.getD j 0 ∧
      psf.getD j 0 ≤ cf.all_rows.length ∧
      psf.getD j 0 ≤ prod.length ∧
      ∃ k, yieldsOf j tr =
          ((prod.take (psf.getD j 0)).drop (ps.getD j 0)).map some ++
            List.replicate k none ∧
        (0 < k → psf.getD j 0 = prod.length) := by
  induction sched with
  | nil =>
      intro c ps h hps cf psf tr heq
      rw [runSched_nil] at heq
      simp only [Prod.mk.injEq] at heq
      obtain ⟨⟨h1, h2⟩, h3⟩ := heq
      subst h1
      subst h2
      subst h3
      have hLN := reach_len_le h
      refine ⟨h, rfl, Nat.le_refl _, ?_⟩
      intro j
      refine ⟨Nat.le_refl _, hps j, by have := hps j; omega, 0, ?_, by omega⟩
      simp [take_drop_self_nil, yieldsOf]
  | cons j0 sched ih =>
      intro c ps h hps cf psf tr heq
      by_cases hv : j0 < ps.length
      · rw [runSched_cons_valid c ps j0 sched hv] at heq
        have hi : ps.get ⟨j0, hv⟩ ≤ c.all_rows.length := by
          have := hps j0
          rw [getD_of_lt ps j0 hv] at this
          exact this
        obtain ⟨hy, hreC, hp, hp2, hlen⟩ := iterStep_spec h (ps.get ⟨j0, hv⟩) hi
        simp only [Prod.mk.injEq] at heq
        obtain ⟨h1, h3⟩ := heq
        have hps2 : ∀ j,
            (ps.set j0 (Collection.iterStep c (ps.get ⟨j0, hv⟩)).2.2).getD j 0 ≤
              (Collection.iterStep c (ps.get ⟨j0, hv⟩)).2.1.all_rows.length := by
          intro j
          by_cases hj : j0 = j
          · subst hj
            rw [getD_set_self_of_lt _ _ _ hv]
            exact hp2
          · rw [getD_set_ne2 _ _ _ _ hj]
            have := hps j
            omega
        have hrec := ih (Collection.iterStep c (ps.get ⟨j0, hv⟩)).2.1
          (ps.set j0 (Collection.iterStep c (ps.get ⟨j0, hv⟩)).2.2) hreC hps2 cf psf
          (runSched ((Collection.iterStep c (ps.get ⟨j0, hv⟩)).2.1,
            ps.set j0 (Collection.iterStep c (ps.get ⟨j0, hv⟩)).2.2) sched).2
          (by rw [← h1])
        obtain ⟨hfr, hflen, hfmono, hfj⟩ := hrec
        have hLN := reach_len_le h
        refine ⟨hfr, by rw [hflen]; simp, by omega, ?_⟩
        intro j
        by_cases hj : j0 = j
        · subst hj
          obtain ⟨ha1, ha2, ha3, k, hk1, hk2⟩ := hfj j0
          rw [getD_set_self_of_lt _ _ _ hv] at ha1 hk1
          have hgd : ps.getD j0 0 = ps.get ⟨j0, hv⟩ := getD_of_lt ps j0 hv
          rw [← h3, yieldsOf_cons_eq]
          by_cases hiN : ps.get ⟨j0, hv⟩ < prod.length
          · rw [if_pos hiN] at hp
            rw [hp] at ha1
            refine ⟨by omega, ha2, ha3, k, ?_, hk2⟩
            rw [hk1, hp, hy, hgd]
            rw [take_drop_cons prod (psf.getD j0 0) (ps.get ⟨j0, hv⟩) (by omega) hiN]
            rw [List.getElem?_eq_getElem hiN]
            simp
          · rw [if_neg hiN] at hp
            rw [hp] at ha1
            have hiEq : ps.get ⟨j0, hv⟩ = prod.length := by omega
            have hpf : psf.getD j0 0 = prod.length := by omega
            refine ⟨by omega, ha2, ha3, k + 1, ?_, fun _ => hpf⟩
            rw [hk1, hp, hy, hgd, hiEq, hpf]
            rw [take_drop_self_nil]
            rw [List.getElem?_eq_none (Nat.le_refl _)]
            simp [List.replicate_succ]
        · obtain ⟨ha1, ha2, ha3, k, hk1, hk2⟩ := hfj j
          rw [getD_set_ne2 _ _ _ _ hj] at ha1 hk1
          rw [← h3, yieldsOf_cons_ne j0 j hj]
          exact ⟨ha1, ha2, ha3, k, hk1, hk2⟩
      · rw [runSched_cons_invalid c ps j0 sched hv] at heq
        exact ih c ps h hps cf psf tr heq

/-! ## Values returned by the aggregate accessors -/

theorem first_val_nil {c : Collection PyVal} (h : Reach ([] : List PyVal) c)
    (d : PyVal) :
    (Collection.first c d).1 =
      (if isException d then .error (.raised d) else .ok d) := by
  rcases hg : Collection.getIndex c 0 with ⟨v, c2⟩
  have hv := (getIndex_val h 0).1
  rw [hg] at hv
  simp only [List.getElem?_nil] at hv
  unfold Collection.first
  rw [hg]
  rcases v with _ | r
  · rfl
  · cases hv

theorem first_val_cons {prod : List PyVal} {c : Collection PyVal} (h : Reach prod c)
    (d : PyVal) (r : PyVal) (hr : prod[0]? = some r) :
    (Collection.first c d).1 = .ok r := by
  rcases hg : Collection.getIndex c 0 with ⟨v, c2⟩
  have hv := (getIndex_val h 0).1
  rw [hg, hr] at hv
  unfold Collection.first
  rw [hg]
  rcases v with _ | r2
  · cases hv
  · rw [Option.some.inj hv]

theorem one_val_nil {c : Collection PyVal} (h : Reach ([] : List PyVal) c)
    (d : PyVal) :
    (Collection.one c d).1 =
      (if isException d then .error (.raised d) else .ok d) := by
  rcases hg : Collection.getIndex c 1 with ⟨v, c2⟩
  have hv := (getIndex_val h 1).1
  rw [hg] at hv
  simp only [List.getElem?_nil] at hv
  have hre := (getIndex_val h 1).2
  rw [hg] at hre
  unfold Collection.one
  rw [hg]
  rcases v with _ | r
  · exact first_val_nil hre d
  · cases hv

theorem one_val_multi {prod : List PyVal} {c : Collection PyVal} (h : Reach prod c)
    (d : PyVal) (h2 : 2 ≤ prod.length) :
    (Collection.one c d).1 = .error (.valueError multipleRowsMsg) := by
  rcases hg : Collection.getIndex c 1 with ⟨v, c2⟩
  have hv := (getIndex_val h 1).1
  rw [hg, List.getElem?_eq_getElem (by omega)] at hv
  unfold Collection.one
  rw [hg]
  rcases v with _ | r
  · cases hv
  · rfl

theorem scalar_val_nil {c : Collection PyVal} (h : Reach ([] : List PyVal) c)
    (d : PyVal) : (Collection.scalar c d).1 = .ok d := by
  rcases ho : Collection.one c .vnone with ⟨v, c2⟩
  have hv := one_val_nil h PyVal.vnone
  rw [ho] at hv
  simp [isException] at hv
  have hs : Collection.scalar c d = (.ok d, c2) := by
    unfold Collection.scalar
    rw [ho]
    rcases v with e | record
    · cases hv
    · rw [hv]
      rfl
  rw [hs]

/-! ## Record lookups -/

theorem record_getItem_dup (r : Record α) (name : String)
    (hdup : 1 < r.keys.count name) :
    Record.getItem r (.inl name) = .error (.keyErrorDup name) := by
  have hmem : name ∈ r.keys := by
    rw [← List.count_pos_iff]
    omega
  have hc : r.keys.contains name = true := List.elem_eq_true_of_mem hmem
  simp only [Record.getItem]
  rw [if_pos hc, if_pos hdup]

theorem record_getItem_missing (r : Record α) (name : String)
    (habs : ¬ name ∈ r.keys) :
    Record.getItem r (.inl name) = .error (.keyErrorMissing name) := by
  have hc : r.keys.contains name = false := by
    rcases hcc : r.keys.contains name with _ | _
    · rfl
    · exact absurd (List.mem_of_elem_eq_true hcc) habs
  simp only [Record.getItem]
  rw [if_neg (by rw [hc]; exact Bool.false_ne_true)]

theorem record_getItem_unique (r : Record α) (name : String)
    (hlen : r.keys.length = r.values.length) (hone : r.keys.count name = 1) :
    ∃ (pos : Nat) (hpos : pos < r.keys.length) (hval : pos < r.values.length),
      r.keys.get ⟨pos, hpos⟩ = name ∧
      Record.getItem r (.inl name) = .ok (r.values.get ⟨pos, hval⟩) := by
  have hmem : name ∈ r.keys := by
    rw [← List.count_pos_iff]
    omega
  have hc : r.keys.contains name = true := List.elem_eq_true_of_mem hmem
  have hpos : r.keys.indexOf name < r.keys.length := List.indexOf_lt_length.mpr hmem
  have hval : r.keys.indexOf name < r.values.length := by omega
  refine ⟨r.keys.indexOf name, hpos, hval, List.indexOf_get hpos, ?_⟩
  simp only [Record.getItem]
  rw [if_pos hc, if_neg (by omega)]
  rw [List.get?_eq_getElem?, List.getElem?_eq_getElem hval]
  simp [List.get_eq_getElem]

theorem record_getItem_int (r : Record α) (j : Nat) :
    Record.getItem r (.inr (j : Int)) =
      (match r.values[j]? with
       | some v => .ok v
       | none => .error .indexError) := by
  simp only [Record.getItem, pyListGet]
  rw [if_pos (by omega)]
  rw [show ((j : Int)).toNat = j from rfl]
  rw [List.get?_eq_getElem?]

/-! ## Helpers for assembling the claims -/

theorem filterMap_some_rep (l : List α) (k : Nat) :
    ((l.map some) ++ List.replicate k none).filterMap id = l := by
  rw [List.filterMap_append]
  have h1 : (l.map some).filterMap id = l := by
    induction l with
    | nil => rfl
    | cons a l ih => simp [ih]
  have h2 : (List.replicate k (none : Option α)).filterMap id = [] := by
    induction k with
    | zero => rfl
    | succ k ih => simp [List.replicate_succ, ih]
  rw [h1, h2, List.append_nil]

theorem none_mem_rep (l : List α) (k : Nat)
    (h : none ∈ (l.map some ++ List.replicate k none)) : 0 < k := by
  rcases List.mem_append.mp h with h1 | h2
  · obtain ⟨a, _, ha⟩ := List.mem_map.mp h1
    cases ha
  · rcases k with _ | k
    · simp at h2
    · omega

theorem getD_replicate_zero (m j : Nat) : (List.replicate m 0).getD j 0 = 0 := by
  rw [List.getD_eq_getElem?_getD, List.getElem?_replicate]
  split <;> rfl

theorem stable_advance_state (b : Collection PyVal) (hbp : b.pending = false)
    (hbf : b.finished = true) :
    ({ b with
         pending := false
         finished := true
         touches := (if b.finished then b.touches else b.touches + 1) } :
      Collection PyVal) = b := by
  obtain ⟨br, ba, bp, bf, bt⟩ := b
  simp only at hbp hbf
  subst hbp
  subst hbf
  rfl

/-! ## The claims -/

/-- Claim C1: over a finite producer, any number of independent
iterations of one Collection, with arbitrarily interleaved steps, each
yield the underlying record sequence in the original order: the records
an iterator has yielded so far are exactly the prefix of `prod` up to
its private position (hence identical across iterators), the position
never passes the end, and once an iterator has signalled termination it
has yielded the full sequence. -/
theorem collection_multi_iteration_consistent {α : Type} (prod : List α) (m : Nat)
    (sched : List Nat) (j : Nat) :
    (yieldsOf j (runSched (Collection.fresh prod, List.replicate m 0) sched).2).filterMap id =
      prod.take ((runSched (Collection.fresh prod, List.replicate m 0) sched).1.2.getD j 0) ∧
    (runSched (Collection.fresh prod, List.replicate m 0) sched).1.2.getD j 0 ≤
      prod.length ∧
    (none ∈ yieldsOf j (runSched (Collection.fresh prod, List.replicate m 0) sched).2 →
      (yieldsOf j (runSched (Collection.fresh prod, List.replicate m 0) sched).2).filterMap
          id = prod) := by
  rcases heq : runSched (Collection.fresh prod, List.replicate m 0) sched with ⟨⟨cf, psf⟩, tr⟩
  obtain ⟨hfr, hflen, hfmono, hfj⟩ :=
    runSched_spec sched (Collection.fresh prod) (List.replicate m 0) (reach_fresh prod)
      (by
        intro j2
        rw [getD_replicate_zero]
        exact Nat.zero_le _) cf psf tr heq
  obtain ⟨ha1, ha2, ha3, k, hk1, hk2⟩ := hfj j
  rw [getD_replicate_zero, List.drop_zero] at hk1
  refine ⟨?_, ha3, ?_⟩
  · rw [hk1, filterMap_some_rep]
  · intro hmem
    rw [hk1] at hmem
    have hkpos := none_mem_rep _ _ hmem
    rw [hk1, filterMap_some_rep, hk2 hkpos, List.take_length]

theorem collection_multi_iteration_witness :
    none ∈ yieldsOf 0 (runSched (Collection.fresh [(10 : Int), 20],
        List.replicate 1 0) [0, 0, 0]).2 ∧
    (yieldsOf 0 (runSched (Collection.fresh [(10 : Int), 20],
        List.replicate 1 0) [0, 0, 0]).2).filterMap id = [10, 20] := by
  have hmem : none ∈ yieldsOf 0 (runSched (Collection.fresh [(10 : Int), 20],
      List.replicate 1 0) [0, 0, 0]).2 := by
    simp [runSched, Collection.iterStep, Collection.getIndex, Collection.fillToN,
      Collection.advance, Collection.fresh, yieldsOf, pySlice]
  exact ⟨hmem, (collection_multi_iteration_consistent [(10 : Int), 20] 1 [0, 0, 0] 0).2.2 hmem⟩

/-- Claim C2: over the whole lifetime of a Collection wrapping a
producer of N records, across any interleaving of iterations, index
accesses, slices and aggregate accessors, each producer touch accounts
for exactly one newly cached record or the single terminal exhaustion
signal: the touch count always equals the cache size plus the terminal
bit, never exceeds N + 1, and equals exactly N + 1 once the producer has
been exhausted (`pending = false`).  In particular the producer is never
pulled for a record that is already cached. -/
theorem collection_at_most_once_consumption (prod : List PyVal) (ops : List Op) :
    (applyOps (Collection.fresh prod) ops).touches =
        (applyOps (Collection.fresh prod) ops).all_rows.length +
          (if (applyOps (Collection.fresh prod) ops).finished then 1 else 0) ∧
    (applyOps (Collection.fresh prod) ops).touches ≤ prod.length + 1 ∧
    ((applyOps (Collection.fresh prod) ops).pending = false →
      (applyOps (Collection.fresh prod) ops).touches = prod.length + 1) := by
  have h := reach_applyOps (reach_fresh prod) ops
  have ht := h.touch_eq
  have hl := reach_len_le h
  refine ⟨ht, ?_, ?_⟩
  · rcases hf : (applyOps (Collection.fresh prod) ops).finished with _ | _ <;>
      rw [hf] at ht <;> simp at ht <;> omega
  · intro hp
    have hpe := h.pend_eq
    rw [hp] at hpe
    have hf : (applyOps (Collection.fresh prod) ops).finished = true := by
      rcases hf2 : (applyOps (Collection.fresh prod) ops).finished with _ | _
      · rw [hf2] at hpe
        cases hpe
      · rfl
    have hrows := h.fin_none hf
    have hfull := reach_nil_full h hrows
    rw [hf] at ht
    simp at ht
    omega

theorem collection_at_most_once_witness :
    (applyOps (Collection.fresh [PyVal.vint 1, PyVal.vint 2]) [Op.allOp]).pending = false ∧
    (applyOps (Collection.fresh [PyVal.vint 1, PyVal.vint 2]) [Op.allOp]).touches = 3 := by
  have hp : (applyOps (Collection.fresh [PyVal.vint 1, PyVal.vint 2])
      [Op.allOp]).pending = false := by
    simp [applyOps, applyOp, Collection.listSelf, Collection.iterFrom, Collection.getIndex,
      Collection.fillToN, Collection.advance, Collection.fresh, pySlice]
  exact ⟨hp,
    (collection_at_most_once_consumption [PyVal.vint 1, PyVal.vint 2] [Op.allOp]).2.2 hp⟩

/-- Claim C3: after any sequence of operations, the cache equals the
first `len(cache)` elements of the underlying result sequence in the
original order, and any further operations only ever append to it: an
entry, once populated, is never changed, removed or reordered. -/
theorem collection_prefix_cache_invariant (prod : List PyVal) (ops : List Op) :
    (applyOps (Collection.fresh prod) ops).all_rows =
        prod.take (applyOps (Collection.fresh prod) ops).all_rows.length ∧
    ∀ more : List Op, ∃ t,
      (applyOps (applyOps (Collection.fresh prod) ops) more).all_rows =
        (applyOps (Collection.fresh prod) ops).all_rows ++ t :=
  ⟨(reach_applyOps (reach_fresh prod) ops).cache_eq,
   fun more => applyOps_cache_mono _ more⟩

/-- Claim C4 (counterexample): slicing `Collection(1, 2, 3)[0:2]` first
fills the cache to two records and then returns
`Collection(iter(cache[0:2]))`: a collection whose PRODUCER holds the
snapshot `[1, 2]` (not yet consumed), whose cache is empty and whose
`pending` flag is `true` — refuting the claim that the new collection
is built over an already-exhausted producer with `pending = false`. -/
theorem collection_slice_counterexample :
    Collection.getSlice (Collection.fresh [(1 : Int), 2, 3]) 0 (some 2) =
      .ok (Collection.fresh [1, 2],
        { rows := [3], all_rows := [1, 2], pending := true, finished := false,
          touches := 2 }) ∧
    (Collection.fresh [(1 : Int), 2]).pending = true ∧
    (Collection.fresh [(1 : Int), 2]).rows = [1, 2] := by
  refine ⟨?_, rfl, rfl⟩
  simp [Collection.getSlice, Collection.fillToN, Collection.fresh, pySlice]

/-- Claim C4 (amended): a slice with bounded stop first fills the cache
up to `stop` (or to exhaustion), then returns a new Collection whose
producer is a fresh iterator over an independently owned snapshot of
`cache[start:stop]`, with an empty cache and `pending = true`; iterating
the new Collection yields exactly that snapshot, and the original
Collection, iterated afterward, still yields all of its records. -/
theorem collection_slice_spec (prod : List PyVal) (ops : List Op) (start n : Nat) :
    ∃ newC c2,
      Collection.getSlice (applyOps (Collection.fresh prod) ops) start (some n) =
        .ok (newC, c2) ∧
      c2.all_rows = prod.take
        (max (applyOps (Collection.fresh prod) ops).all_rows.length
          (min n prod.length)) ∧
      newC = Collection.fresh (pySlice c2.all_rows start (some n)) ∧
      newC.pending = true ∧
      newC.all_rows = [] ∧
      (Collection.listSelf newC).1 = pySlice c2.all_rows start (some n) ∧
      (Collection.listSelf c2).1 = prod := by
  have h := reach_applyOps (reach_fresh prod) ops
  have hre := reach_fillToN n h
  have hlen := fillToN_length n h
  refine ⟨Collection.fresh (pySlice (Collection.fillToN
      (applyOps (Collection.fresh prod) ops) n).all_rows start (some n)),
    Collection.fillToN (applyOps (Collection.fresh prod) ops) n,
    rfl, ?_, rfl, rfl, rfl, ?_, ?_⟩
  · rw [← hlen]
    exact hre.cache_eq
  · have hsnap := iterFrom_spec
      (reach_fresh (pySlice (Collection.fillToN
        (applyOps (Collection.fresh prod) ops) n).all_rows start (some n)))
      (Nat.zero_le _)
    rw [Collection.listSelf, hsnap.1, List.drop_zero]
  · have hall := iterFrom_spec hre (Nat.zero_le _)
    rw [Collection.listSelf, hall.1, List.drop_zero]

/-- Claim C5 (code evaluated at the failing input): a slice request with
an unbounded stop (`stop = None`) raises `TypeError` instead of draining
the producer: the loop condition `len(self) < key.stop` compares an
`int` with `None` before the `or key.stop is None` clause can be
evaluated, so the clause the author wrote for the drain-all case is
unreachable. -/
theorem collection_unbounded_slice_raises (prod : List PyVal) (ops : List Op)
    (start : Nat) :
    Collection.getSlice (applyOps (Collection.fresh prod) ops) start none =
      .error .typeError := rfl

/-- Claim C6: on a Collection whose underlying result sequence holds two
or more records, `one()` always fails with the multiple-rows
`ValueError`, for EVERY caller-supplied default: the second-record probe
`self[1]` happens before any index-0 / default logic, so the multi-row
condition is never suppressed by a default. -/
theorem collection_one_multi_row_failure (prod : List PyVal) (ops : List Op)
    (d : PyVal) (h2 : 2 ≤ prod.length) :
    (Collection.one (applyOps (Collection.fresh prod) ops) d).1 =
      .error (.valueError multipleRowsMsg) :=
  one_val_multi (reach_applyOps (reach_fresh prod) ops) d h2

theorem collection_one_multi_row_witness :
    2 ≤ ([PyVal.vint 1, PyVal.vint 2] : List PyVal).length ∧
    (Collection.one (applyOps (Collection.fresh [PyVal.vint 1, PyVal.vint 2]) [])
        (PyVal.vexc "Default")).1 = .error (.valueError multipleRowsMsg) :=
  ⟨by simp, collection_one_multi_row_failure [PyVal.vint 1, PyVal.vint 2] []
      (PyVal.vexc "Default") (by simp)⟩

/-- Claim C7 (counterexample): on an empty Collection,
`scalar(default=SomeError)` RETURNS the error object instead of
raising it: `one()` is called with its own default of `None`, which is
falsy, so `scalar` returns its `default` as a plain value without the
exception check that `first` and `one` apply. -/
theorem collection_scalar_default_counterexample :
    (Collection.scalar (Collection.fresh ([] : List PyVal)) (PyVal.vexc "Boom")).1 =
      .ok (PyVal.vexc "Boom") := by
  simp [Collection.scalar, Collection.one, Collection.first, Collection.getIndex,
    Collection.fillToN, Collection.fresh, pySlice, isException, pyTruthy]

/-- Claim C7 (amended): on an empty Collection, `first(default)` and
`one(default)` return `default` when it is not an exception and raise it
when it is; `scalar(default)` instead always RETURNS its default as a
plain value (its `one()` call uses the `None` default, which is falsy,
and the default is never inspected for being an exception).  When at
least one record exists, `first` returns the record at index 0. -/
theorem collection_empty_default_spec (ops : List Op) (d : PyVal) :
    (Collection.first (applyOps (Collection.fresh ([] : List PyVal)) ops) d).1 =
        (if isException d then .error (.raised d) else .ok d) ∧
    (Collection.one (applyOps (Collection.fresh ([] : List PyVal)) ops) d).1 =
        (if isException d then .error (.raised d) else .ok d) ∧
    (Collection.scalar (applyOps (Collection.fresh ([] : List PyVal)) ops) d).1 =
        .ok d ∧
    ∀ (prod : List PyVal) (ops2 : List Op) (r : PyVal), prod[0]? = some r →
      (Collection.first (applyOps (Collection.fresh prod) ops2) d).1 = .ok r := by
  have h := reach_applyOps (reach_fresh ([] : List PyVal)) ops
  exact ⟨first_val_nil h d, one_val_nil h d, scalar_val_nil h d,
    fun prod ops2 r hr =>
      first_val_cons (reach_applyOps (reach_fresh prod) ops2) d r hr⟩

theorem collection_empty_default_witness :
    ([PyVal.vint 7] : List PyVal)[0]? = some (PyVal.vint 7) ∧
    (Collection.first (applyOps (Collection.fresh [PyVal.vint 7]) []) PyVal.vnone).1 =
      .ok (PyVal.vint 7) :=
  ⟨rfl, (collection_empty_default_spec [] PyVal.vnone).2.2.2 [PyVal.vint 7] [] _ rfl⟩

/-- Claim C8: once a Collection's `pending` flag is false, every further
call to `advance` fails with the end-of-sequence signal and leaves the
whole state — producer, cache, `pending` flag and the ghost producer
instrumentation — exactly unchanged: the producer is not touched
again. -/
theorem collection_advance_after_exhaustion (prod : List PyVal) (ops : List Op)
    (hp : (applyOps (Collection.fresh prod) ops).pending = false) :
    Collection.advance (applyOps (Collection.fresh prod) ops) =
      (none, applyOps (Collection.fresh prod) ops) := by
  have h := reach_applyOps (reach_fresh prod) ops
  have hpe := h.pend_eq
  rw [hp] at hpe
  have hf : (applyOps (Collection.fresh prod) ops).finished = true := by
    rcases hf2 : (applyOps (Collection.fresh prod) ops).finished with _ | _
    · rw [hf2] at hpe
      cases hpe
    · rfl
  have hrows := h.fin_none hf
  rw [advance_nil _ hrows, stable_advance_state _ hp hf]

theorem collection_advance_after_exhaustion_witness :
    (applyOps (Collection.fresh ([] : List PyVal)) [Op.indexOp 0]).pending = false ∧
    Collection.advance (applyOps (Collection.fresh ([] : List PyVal)) [Op.indexOp 0]) =
      (none, applyOps (Collection.fresh ([] : List PyVal)) [Op.indexOp 0]) := by
  have hp : (applyOps (Collection.fresh ([] : List PyVal))
      [Op.indexOp 0]).pending = false := by
    simp [applyOps, applyOp, Collection.getIndex, Collection.fillToN, Collection.fresh]
  exact ⟨hp, collection_advance_after_exhaustion [] [Op.indexOp 0] hp⟩

/-- Claim C9: `Record.__getitem__` with an integer index returns
`values[index]` and fails with IndexError when the index is out of
bounds; with a name it fails with the duplicate-field KeyError when the
name occurs more than once in `keys`, fails with the missing-field
KeyError when the name is absent, and otherwise returns the value at
the (unique) position where the name occurs. -/
theorem record_lookup_spec {α : Type} (r : Record α)
    (hlen : r.keys.length = r.values.length) :
    (∀ (j : Nat) (hj : j < r.values.length),
        Record.getItem r (.inr (j : Int)) = .ok (r.values.get ⟨j, hj⟩)) ∧
    (∀ j : Nat, r.values.length ≤ j →
        Record.getItem r (.inr (j : Int)) = .error .indexError) ∧
    (∀ name : String, 1 < r.keys.count name →
        Record.getItem r (.inl name) = .error (.keyErrorDup name)) ∧
    (∀ name : String, ¬ name ∈ r.keys →
        Record.getItem r (.inl name) = .error (.keyErrorMissing name)) ∧
    (∀ name : String, r.keys.count name = 1 →
        ∃ (pos : Nat) (hpos : pos < r.keys.length) (hval : pos < r.values.length),
          r.keys.get ⟨pos, hpos⟩ = name ∧
          Record.getItem r (.inl name) = .ok (r.values.get ⟨pos, hval⟩)) := by
  refine ⟨?_, ?_, record_getItem_dup r, record_getItem_missing r,
    fun name hone => record_getItem_unique r name hlen hone⟩
  · intro j hj
    rw [record_getItem_int, List.getElem?_eq_getElem hj]
    simp [List.get_eq_getElem]
  · intro j hj
    rw [record_getItem_int, List.getElem?_eq_none hj]

theorem record_lookup_witness :
    (["id", "email", "email"] : List String).length =
        (["1", "a", "b"] : List String).length ∧
    Record.getItem (Record.mk ["id", "email", "email"] ["1", "a", "b"])
        (.inl "email") = .error (.keyErrorDup "email") ∧
    Record.getItem (Record.mk ["id", "email", "email"] ["1", "a", "b"])
        (.inr (2 : Int)) = .ok "b" := by
  obtain ⟨h1, h2, h3, h4, h5⟩ :=
    record_lookup_spec (Record.mk ["id", "email", "email"] ["1", "a", "b"]) rfl
  refine ⟨rfl, h3 "email" (by decide), ?_⟩
  have hres := h1 2 (by decide)
  simpa using hres

/-- Claim C10: when a name occurs more than once in a Record's keys,
`Record.get(name, default)` returns the default: the duplicate-field
KeyError that `__getitem__` raises is caught by `get` and converted to
the default value, exactly as for an absent name. -/
theorem record_get_swallows_duplicate {α : Type} (r : Record α) (name : String)
    (default : α) (hdup : 1 < r.keys.count name) :
    Record.get r name default = .ok default := by
  unfold Record.get
  rw [record_getItem_dup r name hdup]
  rfl

theorem record_get_swallows_duplicate_witness :
    1 < (["id", "email", "email"] : List String).count "email" ∧
    Record.get (Record.mk ["id", "email", "email"] [(1 : Int), 2, 3]) "email" 9 =
      .ok 9 :=
  ⟨by decide,
   record_get_swallows_duplicate (Record.mk ["id", "email", "email"] [(1 : Int), 2, 3])
     "email" 9 (by decide)⟩
